import Mathlib

/-
Verification of the simtool cache system (cache_web_server.py, cache_client.py,
cache_config.py) against its natural-language specification.

Strings are modelled as `List Char` (Python `str` is a sequence of code points)
and byte strings as `List Nat` with every element `< 256`.
-/

set_option maxRecDepth 10000

namespace Simtool

/-! ## Path codec: flatten / unflatten (cache_client.py)

`store_result` flattens a relative path with `rel_path.replace(os.sep, "_._")`
(os.sep = '/'); `get_archived_result` reconstructs it with
`file_name.split("_._")` joined back by the path separator. -/

/-- The reserved separator token `_._` used by the cache layout. -/
def sepTok : List Char := ['_', '.', '_']

/-- Python `str.replace("/", "_._")`: the needle is a single character, so the
replacement acts independently on every character. This is the flatten step of
`store_result` (cache_client.py line 412/418). -/
def flatten (p : List Char) : List Char :=
  (p.map (fun c => if c = '/' then sepTok else [c])).flatten

/-- Python `s.split("_._")`: split on leftmost non-overlapping occurrences of
the three-character separator token. Structured with explicit fuel (one unit
per character) so that it is structurally recursive; `splitOnTok` below
supplies enough fuel. -/
def splitOnTokF : Nat → List Char → List (List Char)
  | _, [] => [[]]
  | 0, l => [l]
  | fuel + 1, c :: rest =>
    if sepTok <+: (c :: rest) then
      [] :: splitOnTokF fuel (rest.drop 2)
    else
      match splitOnTokF fuel rest with
      | [] => [[c]]
      | s :: ss => (c :: s) :: ss

/-- Python `s.split("_._")` on the full string. -/
def splitOnTok (s : List Char) : List (List Char) := splitOnTokF s.length s

theorem splitOnTokF_fuel (f1 : Nat) : ∀ (f2 : Nat) (s : List Char),
    s.length ≤ f1 → s.length ≤ f2 → splitOnTokF f1 s = splitOnTokF f2 s := by
  induction f1 with
  | zero =>
    intro f2 s h1 _
    cases s with
    | nil => cases f2 <;> rfl
    | cons c rest => simp at h1
  | succ f1' ih =>
    intro f2 s h1 h2
    cases s with
    | nil => cases f2 <;> rfl
    | cons c rest =>
      cases f2 with
      | zero => simp at h2
      | succ f2' =>
        simp only [List.length_cons] at h1 h2
        simp only [splitOnTokF]
        by_cases hp : sepTok <+: (c :: rest)
        · rw [if_pos hp, if_pos hp,
            ih f2' (rest.drop 2) (by simp [List.length_drop]; omega)
              (by simp [List.length_drop]; omega)]
        · rw [if_neg hp, if_neg hp, ih f2' rest (by omega) (by omega)]

/-- The retrieval side of the codec (`get_archived_result`, cache_client.py
lines 363-369): split the flat stored name on `_._` and join the parts with
the path separator. (When the name contains no `_._` the code skips the
split; that equals splitting, which then returns the single whole name.) -/
def unflattenPath (s : List Char) : List Char :=
  List.intercalate ['/'] (splitOnTok s)

/-- Join path segments with `/` (how a relative path is written as a string). -/
def joinPath (segs : List (List Char)) : List Char :=
  List.intercalate ['/'] segs

theorem intercalate_cons₂ (sep : List Char) (x y : List Char) (zs : List (List Char)) :
    List.intercalate sep (x :: y :: zs) = x ++ sep ++ List.intercalate sep (y :: zs) := by
  simp [List.intercalate, List.intersperse_cons_cons, List.append_assoc]

theorem intercalate_one (sep x : List Char) : List.intercalate sep [x] = x := by
  simp [List.intercalate]

theorem flatten_append (a b : List Char) : flatten (a ++ b) = flatten a ++ flatten b := by
  simp [flatten]

theorem flatten_no_slash (s : List Char) (h : '/' ∉ s) : flatten s = s := by
  induction s with
  | nil => rfl
  | cons c rest ih =>
    have hc : c ≠ '/' := fun hc => h (hc ▸ List.mem_cons_self c rest)
    have hr : '/' ∉ rest := fun hm => h (List.mem_cons_of_mem c hm)
    simp [flatten, hc] at ih ⊢
    exact ih hr

theorem flatten_joinPath (segs : List (List Char)) (h : ∀ s ∈ segs, '/' ∉ s) :
    flatten (joinPath segs) = List.intercalate sepTok segs := by
  induction segs with
  | nil => rfl
  | cons s rest ih =>
    cases rest with
    | nil =>
      simp only [joinPath, intercalate_one]
      exact flatten_no_slash s (h s (List.mem_cons_self s []))
    | cons s2 rest2 =>
      have hrec := ih (fun x hx => h x (List.mem_cons_of_mem s hx))
      rw [joinPath, intercalate_cons₂, intercalate_cons₂ sepTok,
        flatten_append, flatten_append]
      rw [flatten_no_slash s (h s (List.mem_cons_self s _))]
      rw [joinPath] at hrec
      rw [hrec]
      rfl

theorem sep_not_prefix_mid (c : Char) (s' t : List Char)
    (h1 : ¬ sepTok <:+: (c :: s')) (h2 : ¬ ['_', '.'] <:+ (c :: s')) :
    ¬ sepTok <+: (c :: (s' ++ (sepTok ++ t))) := by
  intro hp
  match s' with
  | [] =>
    have hp' : sepTok <+: (c :: '_' :: '.' :: '_' :: t) := hp
    obtain ⟨hc, hp1⟩ := List.cons_prefix_cons.mp hp'
    obtain ⟨hdot, _⟩ := List.cons_prefix_cons.mp hp1
    exact absurd hdot (by decide)
  | [d] =>
    have hp' : sepTok <+: (c :: d :: '_' :: '.' :: '_' :: t) := hp
    obtain ⟨hc, hp1⟩ := List.cons_prefix_cons.mp hp'
    obtain ⟨hd, _⟩ := List.cons_prefix_cons.mp hp1
    subst hc; subst hd
    exact h2 (List.suffix_refl _)
  | d :: e :: s'' =>
    obtain ⟨hc, hp1⟩ := List.cons_prefix_cons.mp hp
    obtain ⟨hd, hp2⟩ := List.cons_prefix_cons.mp hp1
    obtain ⟨he, _⟩ := List.cons_prefix_cons.mp hp2
    subst hc; subst hd; subst he
    exact h1 (List.IsPrefix.isInfix ⟨s'', rfl⟩)

theorem splitOnTokF_no_sep (s : List Char) : ∀ fuel, s.length ≤ fuel →
    ¬ sepTok <:+: s → splitOnTokF fuel s = [s] := by
  induction s with
  | nil => intro fuel _ _; cases fuel <;> rfl
  | cons c rest ih =>
    intro fuel hlen h
    cases fuel with
    | zero => simp at hlen
    | succ f =>
      simp only [splitOnTokF]
      rw [if_neg (fun hp => h (List.IsPrefix.isInfix hp)),
        ih f (by simp at hlen; omega) (fun hin => h (List.infix_cons hin))]

theorem splitOnTok_no_sep (s : List Char) (h : ¬ sepTok <:+: s) : splitOnTok s = [s] :=
  splitOnTokF_no_sep s s.length le_rfl h

theorem splitOnTokF_emit (s : List Char) : ∀ (fuel : Nat) (t : List Char),
    s.length + 3 + t.length ≤ fuel + 1 → ¬ sepTok <:+: s → ¬ ['_', '.'] <:+ s →
    splitOnTokF (fuel + 1) (s ++ (sepTok ++ t)) = s :: splitOnTok t := by
  induction s with
  | nil =>
    intro fuel t hlen _ _
    simp only [List.nil_append, List.length_nil] at hlen ⊢
    show splitOnTokF (fuel + 1) ('_' :: '.' :: '_' :: t) = [] :: splitOnTok t
    simp only [splitOnTokF]
    have hpre : sepTok <+: ('_' :: '.' :: '_' :: t) := ⟨t, rfl⟩
    rw [if_pos hpre]
    show [] :: splitOnTokF fuel t = [] :: splitOnTok t
    rw [splitOnTokF_fuel fuel t.length t (by omega) le_rfl]
    rfl
  | cons c s' ih =>
    intro fuel t hlen h1 h2
    have h1' : ¬ sepTok <:+: s' := fun hin => h1 (List.infix_cons hin)
    have h2' : ¬ ['_', '.'] <:+ s' := fun hsf => h2 (hsf.trans (List.suffix_cons c s'))
    cases fuel with
    | zero => simp at hlen; omega
    | succ f =>
      rw [List.cons_append]
      simp only [splitOnTokF]
      rw [if_neg (sep_not_prefix_mid c s' t h1 h2),
        ih f t (by simp at hlen; omega) h1' h2']

theorem splitOnTok_emit (s t : List Char) (h1 : ¬ sepTok <:+: s) (h2 : ¬ ['_', '.'] <:+ s) :
    splitOnTok (s ++ (sepTok ++ t)) = s :: splitOnTok t := by
  have hl : (s ++ (sepTok ++ t)).length = (s.length + 2 + t.length) + 1 := by
    simp [sepTok]; omega
  rw [splitOnTok, hl]
  exact splitOnTokF_emit s (s.length + 2 + t.length) t (by omega) h1 h2

theorem splitOnTok_intercalate (segs : List (List Char)) (hne : segs ≠ [])
    (hseg : ∀ s ∈ segs, ¬ sepTok <:+: s ∧ ¬ ['_', '.'] <:+ s) :
    splitOnTok (List.intercalate sepTok segs) = segs := by
  induction segs with
  | nil => exact absurd rfl hne
  | cons s rest ih =>
    cases rest with
    | nil =>
      rw [intercalate_one]
      exact splitOnTok_no_sep s (hseg s (List.mem_cons_self s [])).1
    | cons s2 rest2 =>
      have hs := hseg s (List.mem_cons_self s _)
      rw [intercalate_cons₂, List.append_assoc,
        splitOnTok_emit s _ hs.1 hs.2,
        ih (by simp) (fun x hx => hseg x (List.mem_cons_of_mem s hx))]

/-- C2 (amended): for every non-empty relative path whose segments contain no
`/`, contain no occurrence of the reserved token `_._`, and do not end with
the two characters `_.`, retrieving reconstructs exactly the stored relative
path: `unflatten (flatten p) = p`. -/
theorem flatten_unflatten_amended (segs : List (List Char)) (hne : segs ≠ [])
    (hseg : ∀ s ∈ segs, ('/' ∉ s) ∧ ¬ sepTok <:+: s ∧ ¬ ['_', '.'] <:+ s) :
    unflattenPath (flatten (joinPath segs)) = joinPath segs := by
  rw [flatten_joinPath segs (fun s hs => (hseg s hs).1), unflattenPath,
    splitOnTok_intercalate segs hne (fun s hs => ((hseg s hs).2 : _))]
  rfl

theorem flatten_unflatten_amended_witness :
    ((['a'], ['b', 'c']) : List Char × List Char).1 ≠ [] ∧
      unflattenPath (flatten (joinPath [['a'], ['b', 'c']])) = joinPath [['a'], ['b', 'c']] :=
  ⟨by decide, flatten_unflatten_amended [['a'], ['b', 'c']] (by decide) (by decide)⟩

/-- C2 (counterexample): the claim asserts the round trip holds even for a
segment whose name contains the character run `_._`. It does not: the single
legal segment `a_._b` flattens to itself but re-splits into `a/b`, and the two
distinct relative paths `a/b` and `a_._b` flatten to the same stored name, so
the transform is not a bijection on such paths. -/
theorem flatten_unflatten_ce :
    unflattenPath (flatten ['a', '_', '.', '_', 'b']) ≠ ['a', '_', '.', '_', 'b'] ∧
      flatten ['a', '/', 'b'] = flatten ['a', '_', '.', '_', 'b'] ∧
      (['a', '/', 'b'] : List Char) ≠ ['a', '_', '.', '_', 'b'] := by
  refine ⟨by decide, by decide, by decide⟩

/-! ## Transfer client retry loop (`CacheClient._make_request`, cache_client.py
lines 82-173) and the configuration constants (cache_config.py lines 23-28).

The loop runs `for attempt in range(self.max_retries)`. Each iteration either
returns the response (status < 400), raises at once on a 4xx status or a
non-transport `RequestException`, or — on a 5xx status, a timeout, or a
connection error — sleeps and continues when `attempt < max_retries - 1`,
raising otherwise. The i-th planned attempt's outcome is supplied by an
environment function `env : Nat → Attempt`. -/

/-- Outcome of one HTTP attempt as observed by `_make_request`. -/
inductive Attempt where
  | ok (status : Nat)
  | timeout
  | connError
  | reqError
deriving DecidableEq

/-- How a call to `_make_request` ends: a returned response, or a raised
`CacheClientException` of a particular flavor. -/
inductive FailKind where
  | clientError
  | serverError
  | timeoutFail
  | connFail
  | requestFail
  | exhausted
deriving DecidableEq

inductive ReqResult where
  | success (status : Nat)
  | failure (k : FailKind)
deriving DecidableEq

/-- `REQUEST_TIMEOUT` from `CacheConfig`. -/
def REQUEST_TIMEOUT : Nat := 30

/-- `MAX_RETRIES` from `CacheConfig`. -/
def MAX_RETRIES : Nat := 3

/-- `RETRY_DELAY` from `CacheConfig` (seconds). -/
def RETRY_DELAY : Nat := 1

/-- The body of the `for attempt in range(max_retries)` loop of
`_make_request`, over the list of outcomes of the still-planned attempts.
`rest ≠ []` is exactly `attempt < max_retries - 1`. The final
`.failure .exhausted` models the raise after the loop (reachable only when
`max_retries = 0`). -/
def requestLoop (retry : Bool) : List Attempt → ReqResult
  | [] => .failure .exhausted
  | a :: rest =>
    match a with
    | .ok s =>
      if s < 400 then .success s
      else if s < 500 then .failure .clientError
      else if rest ≠ [] ∧ retry = true then requestLoop retry rest
      else .failure .serverError
    | .timeout =>
      if rest ≠ [] ∧ retry = true then requestLoop retry rest
      else .failure .timeoutFail
    | .connError =>
      if rest ≠ [] ∧ retry = true then requestLoop retry rest
      else .failure .connFail
    | .reqError => .failure .requestFail

/-- `_make_request`: run the loop over the `maxRetries` planned attempts. -/
def makeRequest (maxRetries : Nat) (retry : Bool) (env : Nat → Attempt) : ReqResult :=
  requestLoop retry ((List.range maxRetries).map env)

/-- An attempt outcome of the transient class: connection failure, timeout, or
a 5xx status. -/
def Transient (a : Attempt) : Prop :=
  a = .timeout ∨ a = .connError ∨ ∃ s, a = .ok s ∧ 500 ≤ s

theorem range_three : List.range 3 = [0, 1, 2] := by decide

theorem transient_step (a : Attempt) (rest : List Attempt) (h : Transient a)
    (hne : rest ≠ []) : requestLoop true (a :: rest) = requestLoop true rest := by
  rcases h with h | h | ⟨s, h, hs⟩ <;> subst h
  · simp [requestLoop, hne]
  · simp [requestLoop, hne]
  · simp only [requestLoop]
    rw [if_neg (by omega), if_neg (by omega)]
    simp [hne]

theorem transient_last (a : Attempt) (h : Transient a) :
    ∃ k, k ≠ FailKind.clientError ∧ requestLoop true [a] = .failure k := by
  rcases h with h | h | ⟨s, h, hs⟩ <;> subst h
  · exact ⟨.timeoutFail, by decide, by simp [requestLoop]⟩
  · exact ⟨.connFail, by decide, by simp [requestLoop]⟩
  · refine ⟨.serverError, by decide, ?_⟩
    simp only [requestLoop]
    rw [if_neg (by omega), if_neg (by omega), if_neg (by simp)]

/-- C3 (counterexample): the claim asserts that with retry bound 3, three
consecutive transient failures followed by a success still yield an overall
success. The loop makes at most `MAX_RETRIES = 3` attempts in total, so three
consecutive timeouts already exhaust it and the call raises, even though the
fourth attempt would have succeeded. -/
theorem retry_three_failures_ce :
    makeRequest MAX_RETRIES true
        (fun i => if i < 3 then Attempt.timeout else Attempt.ok 200) =
      ReqResult.failure FailKind.timeoutFail := by
  decide

/-- C3 (amended): the retry policy of `_make_request` with the configured
bound `MAX_RETRIES = 3` (total attempts) and fixed delay `RETRY_DELAY = 1`:
a transient fault (timeout, connection failure, 5xx status) on a non-final
attempt is retried; a success on the final attempt after two transient
failures yields overall success; a third consecutive transient failure
surfaces a single client failure (not the client-error kind); a 4xx status on
any attempt fails immediately with the client-error kind and no retry. -/
theorem retry_policy_amended :
    MAX_RETRIES = 3 ∧ RETRY_DELAY = 1 ∧
      (∀ env : Nat → Attempt, ∀ s, Transient (env 0) → Transient (env 1) →
        env 2 = Attempt.ok s → s < 400 →
        makeRequest MAX_RETRIES true env = .success s) ∧
      (∀ env : Nat → Attempt, Transient (env 0) → Transient (env 1) →
        Transient (env 2) →
        ∃ k, k ≠ FailKind.clientError ∧
          makeRequest MAX_RETRIES true env = .failure k) ∧
      (∀ env : Nat → Attempt, ∀ s, env 0 = Attempt.ok s → 400 ≤ s → s < 500 →
        makeRequest MAX_RETRIES true env = .failure .clientError) := by
  refine ⟨rfl, rfl, ?_, ?_, ?_⟩
  · intro env s h0 h1 h2 hs
    rw [makeRequest, show MAX_RETRIES = 3 from rfl, range_three]
    simp only [List.map_cons, List.map_nil]
    rw [transient_step (env 0) _ h0 (by simp),
      transient_step (env 1) _ h1 (by simp), h2]
    simp [requestLoop, hs]
  · intro env h0 h1 h2
    rw [makeRequest, show MAX_RETRIES = 3 from rfl, range_three]
    simp only [List.map_cons, List.map_nil]
    rw [transient_step (env 0) _ h0 (by simp),
      transient_step (env 1) _ h1 (by simp)]
    exact transient_last (env 2) h2
  · intro env s h0 h400 h500
    rw [makeRequest, show MAX_RETRIES = 3 from rfl, range_three]
    simp only [List.map_cons, List.map_nil]
    rw [h0]
    simp only [requestLoop]
    rw [if_neg (by omega), if_pos h500]

theorem retry_policy_amended_witness :
    Transient Attempt.timeout ∧
      makeRequest MAX_RETRIES true
          (fun i => if i < 2 then Attempt.timeout else Attempt.ok 200) =
        ReqResult.success 200 :=
  ⟨Or.inl rfl,
    retry_policy_amended.2.2.1
      (fun i => if i < 2 then Attempt.timeout else Attempt.ok 200) 200
      (Or.inl rfl) (Or.inl rfl) rfl (by omega)⟩

/-! ## `check_squid_exists` (cache_client.py lines 209-226)

On a successful request it returns `response.json().get("exists", False)`;
any exception (including every flavor raised by `_make_request` and a JSON
parse failure) is caught and converted to `False`. The body payload models
the parsed value of the `"exists"` field of a successful response (`none` =
field absent or body unparseable). -/

/-- `check_squid_exists`: soft-fail existence check built on `makeRequest`. -/
def check_squid_exists (env : Nat → Attempt) (payload : Option Bool) : Bool :=
  match makeRequest MAX_RETRIES true env with
  | .success _ => payload.getD false
  | .failure _ => false

/-- C9: `check_squid_exists` always returns a boolean and never propagates a
transport failure: whenever `_make_request` raises (any failure kind), the
function returns `false` rather than re-raising; on a success response it
returns the server's verdict (defaulting to `false` when the field is
absent). -/
theorem check_exists_soft_fail (env : Nat → Attempt) (payload : Option Bool) :
    (∀ k, makeRequest MAX_RETRIES true env = .failure k →
      check_squid_exists env payload = false) ∧
    (∀ s b, makeRequest MAX_RETRIES true env = .success s → payload = some b →
      check_squid_exists env payload = b) ∧
    (∀ s, makeRequest MAX_RETRIES true env = .success s → payload = none →
      check_squid_exists env payload = false) := by
  refine ⟨?_, ?_, ?_⟩
  · intro k hk; rw [check_squid_exists, hk]
  · intro s b hs hb; rw [check_squid_exists, hs, hb]; rfl
  · intro s hs hb; rw [check_squid_exists, hs, hb]; rfl

theorem check_exists_soft_fail_witness :
    makeRequest MAX_RETRIES true (fun _ => Attempt.connError) =
        ReqResult.failure FailKind.connFail ∧
      check_squid_exists (fun _ => Attempt.connError) (some true) = false :=
  ⟨by decide,
    (check_exists_soft_fail (fun _ => Attempt.connError) (some true)).1
      FailKind.connFail (by decide)⟩

/-! ## `store_result` (cache_client.py lines 381-434)

The gathering walk produces `files_to_upload` (flattened cache keys with file
bytes); the model takes that mapping and the outcome of the `upload_files`
call as inputs. The whole body is wrapped in `try`/`except Exception`, which
prints the error and returns `False`, so no exception escapes; an empty
mapping hits `return False` before any upload. -/

inductive StoreOutcome where
  | retTrue
  | retFalse
  | raised
deriving DecidableEq

/-- `store_result` control flow after gathering `files_to_upload`. -/
def store_result (files_to_upload : List (List Char × List Nat))
    (upload : Except Unit Unit) : StoreOutcome :=
  if files_to_upload.isEmpty then .retFalse
  else
    match upload with
    | .ok _ => .retTrue
    | .error _ => .retFalse

/-- C7 (counterexample): the claim says `store_result` propagates an explicit,
typed error when no files were found to upload. It does not: with an empty
`files_to_upload` it prints a message and returns `False` (and its
`except Exception` block converts every storing failure to `False` as well),
so nothing is raised. -/
theorem store_result_nofiles_ce :
    store_result [] (Except.ok ()) = StoreOutcome.retFalse ∧
      StoreOutcome.retFalse ≠ StoreOutcome.raised := by
  exact ⟨rfl, by decide⟩

/-- C7 (amended): `store_result` never raises: it returns `False` when no
files were found to upload, returns `False` when the upload fails (the
exception is caught and logged), and returns `True` exactly when files were
found and the upload succeeded. -/
theorem store_result_amended (files : List (List Char × List Nat))
    (upload : Except Unit Unit) :
    store_result files upload ≠ StoreOutcome.raised ∧
      (files = [] → store_result files upload = .retFalse) ∧
      (files ≠ [] → upload = .ok () → store_result files upload = .retTrue) ∧
      (files ≠ [] → ∀ e, upload = .error e → store_result files upload = .retFalse) := by
  refine ⟨?_, ?_, ?_, ?_⟩
  · unfold store_result
    by_cases h : files.isEmpty
    · simp [h]
    · simp only [h, if_false]
      cases upload <;> simp
  · intro h; subst h; rfl
  · intro hne hup; subst hup
    unfold store_result
    rw [if_neg (by simpa using hne)]
  · intro hne e hup; subst hup
    unfold store_result
    rw [if_neg (by simpa using hne)]

theorem store_result_amended_witness :
    ((['a'], [1]) :: [] : List (List Char × List Nat)) ≠ [] ∧
      store_result [(['a'], [1])] (Except.ok ()) = StoreOutcome.retTrue :=
  ⟨by decide, (store_result_amended [(['a'], [1])] (Except.ok ())).2.2.1
    (by decide) rfl⟩

/-! ## UTF-8 (Python `str.encode()` / `bytes.decode()`) -/

/-- UTF-8 encoding of a single code point. -/
def utf8Char (c : Char) : List Nat :=
  let n := c.toNat
  if n < 128 then [n]
  else if n < 2048 then [192 + n / 64, 128 + n % 64]
  else if n < 65536 then [224 + n / 4096, 128 + n / 64 % 64, 128 + n % 64]
  else [240 + n / 262144, 128 + n / 4096 % 64, 128 + n / 64 % 64, 128 + n % 64]

/-- Python `str.encode()` (UTF-8 bytes of a string). -/
def utf8Bytes (s : List Char) : List Nat := (s.map utf8Char).flatten

/-- Python `bytes.decode()` with the default strict error handler: decode one
UTF-8 sequence from the front, rejecting malformed or truncated sequences,
overlong encodings, surrogates, and code points above 0x10FFFF. -/
def utf8DecodeOne : List Nat → Option (Char × List Nat)
  | [] => none
  | b :: rest =>
    if b < 128 then some (Char.ofNat b, rest)
    else
      match rest with
      | [] => none
      | b2 :: rest2 =>
        if 194 ≤ b ∧ b < 224 then
          if 128 ≤ b2 ∧ b2 < 192 then
            some (Char.ofNat ((b - 192) * 64 + (b2 - 128)), rest2)
          else none
        else
          match rest2 with
          | [] => none
          | b3 :: rest3 =>
            if 224 ≤ b ∧ b < 240 then
              if (128 ≤ b2 ∧ b2 < 192) ∧ (128 ≤ b3 ∧ b3 < 192) then
                if 2048 ≤ (b - 224) * 4096 + (b2 - 128) * 64 + (b3 - 128) ∧
                    ¬ (55296 ≤ (b - 224) * 4096 + (b2 - 128) * 64 + (b3 - 128) ∧
                      (b - 224) * 4096 + (b2 - 128) * 64 + (b3 - 128) < 57344) then
                  some (Char.ofNat ((b - 224) * 4096 + (b2 - 128) * 64 + (b3 - 128)), rest3)
                else none
              else none
            else
              match rest3 with
              | [] => none
              | b4 :: rest4 =>
                if 240 ≤ b ∧ b < 245 then
                  if (128 ≤ b2 ∧ b2 < 192) ∧ (128 ≤ b3 ∧ b3 < 192) ∧
                      (128 ≤ b4 ∧ b4 < 192) then
                    if 65536 ≤ (b - 240) * 262144 + (b2 - 128) * 4096 +
                          (b3 - 128) * 64 + (b4 - 128) ∧
                        (b - 240) * 262144 + (b2 - 128) * 4096 +
                          (b3 - 128) * 64 + (b4 - 128) < 1114112 then
                      some (Char.ofNat ((b - 240) * 262144 + (b2 - 128) * 4096 +
                        (b3 - 128) * 64 + (b4 - 128)), rest4)
                    else none
                  else none
                else none

/-- Python `bytes.decode()`: repeatedly decode one code point. The fuel (one
unit per byte) makes the recursion structural; `utf8Decode` supplies enough. -/
def utf8DecodeF : Nat → List Nat → Option (List Char)
  | 0, bs => if bs = [] then some [] else none
  | fuel + 1, bs =>
    if bs = [] then some []
    else
      match utf8DecodeOne bs with
      | none => none
      | some (c, r) => (utf8DecodeF fuel r).map (fun cs => c :: cs)

/-- Python `bytes.decode()` on a whole byte string. -/
def utf8Decode (bs : List Nat) : Option (List Char) := utf8DecodeF bs.length bs

theorem char_toNat_lt (c : Char) : c.toNat < 1114112 := by
  have hv := c.valid
  rcases hv with h | ⟨_, h2⟩
  · show c.val.toNat < 1114112
    omega
  · exact h2

theorem char_valid_cases (c : Char) :
    c.toNat < 55296 ∨ (57344 ≤ c.toNat ∧ c.toNat < 1114112) := by
  have hv := c.valid
  rcases hv with h | ⟨h1, h2⟩
  · exact Or.inl h
  · exact Or.inr ⟨h1, h2⟩

theorem utf8Char_lt (c : Char) : ∀ b ∈ utf8Char c, b < 256 := by
  intro b hb
  have h1114 : c.toNat < 1114112 := char_toNat_lt c
  simp only [utf8Char] at hb
  split at hb
  · simp at hb; omega
  · split at hb
    · simp at hb; rcases hb with hb | hb <;> omega
    · split at hb
      · simp at hb; rcases hb with hb | hb | hb <;> omega
      · simp at hb; rcases hb with hb | hb | hb | hb <;> omega

theorem utf8Bytes_lt (s : List Char) : ∀ b ∈ utf8Bytes s, b < 256 := by
  intro b hb
  simp only [utf8Bytes] at hb
  rw [List.mem_flatten] at hb
  obtain ⟨l, hl, hbl⟩ := hb
  rw [List.mem_map] at hl
  obtain ⟨c, _, hc⟩ := hl
  exact utf8Char_lt c b (hc ▸ hbl)

theorem utf8Char_length_pos (c : Char) : 0 < (utf8Char c).length := by
  simp only [utf8Char]
  repeat' split
  all_goals simp

theorem utf8DecodeOne_encode (c : Char) (tail : List Nat) :
    utf8DecodeOne (utf8Char c ++ tail) = some (c, tail) := by
  have hval := char_valid_cases c
  have hofNat : Char.ofNat c.toNat = c := Char.ofNat_toNat c
  by_cases h1 : c.toNat < 128
  · have he : utf8Char c = [c.toNat] := by simp [utf8Char, h1]
    rw [he, List.cons_append, List.nil_append]
    simp only [utf8DecodeOne]
    rw [if_pos h1, hofNat]
  · by_cases h2 : c.toNat < 2048
    · have he : utf8Char c = [192 + c.toNat / 64, 128 + c.toNat % 64] := by
        simp [utf8Char, h1, h2]
      rw [he]
      simp only [List.cons_append, List.nil_append, utf8DecodeOne]
      rw [if_neg (by omega), if_pos (by constructor <;> omega),
        if_pos (by constructor <;> omega)]
      have harg : (192 + c.toNat / 64 - 192) * 64 + (128 + c.toNat % 64 - 128)
          = c.toNat := by omega
      rw [harg, hofNat]
    · by_cases h3 : c.toNat < 65536
      · have he : utf8Char c =
            [224 + c.toNat / 4096, 128 + c.toNat / 64 % 64, 128 + c.toNat % 64] := by
          simp [utf8Char, h1, h2, h3]
        rw [he]
        simp only [List.cons_append, List.nil_append, utf8DecodeOne]
        rw [if_neg (by omega), if_neg (by omega),
          if_pos (by constructor <;> omega),
          if_pos (by exact ⟨⟨by omega, by omega⟩, by omega, by omega⟩)]
        have harg : (224 + c.toNat / 4096 - 224) * 4096 +
            (128 + c.toNat / 64 % 64 - 128) * 64 + (128 + c.toNat % 64 - 128)
            = c.toNat := by omega
        rw [harg]
        rw [if_pos (by refine ⟨by omega, ?_⟩; rcases hval with h | h <;> omega)]
        rw [hofNat]
      · have hhi : c.toNat < 1114112 := by rcases hval with h | h <;> omega
        have he : utf8Char c =
            [240 + c.toNat / 262144, 128 + c.toNat / 4096 % 64,
              128 + c.toNat / 64 % 64, 128 + c.toNat % 64] := by
          simp [utf8Char, h1, h2, h3]
        rw [he]
        simp only [List.cons_append, List.nil_append, utf8DecodeOne]
        rw [if_neg (by omega), if_neg (by omega), if_neg (by omega),
          if_pos (by constructor <;> omega),
          if_pos (by exact ⟨⟨by omega, by omega⟩, ⟨by omega, by omega⟩,
            by omega, by omega⟩)]
        have harg : (240 + c.toNat / 262144 - 240) * 262144 +
            (128 + c.toNat / 4096 % 64 - 128) * 4096 +
            (128 + c.toNat / 64 % 64 - 128) * 64 + (128 + c.toNat % 64 - 128)
            = c.toNat := by omega
        rw [harg]
        rw [if_pos (by constructor <;> omega)]
        rw [hofNat]

theorem utf8DecodeF_encode (s : List Char) : ∀ fuel, (utf8Bytes s).length ≤ fuel →
    utf8DecodeF fuel (utf8Bytes s) = some s := by
  induction s with
  | nil => intro fuel _; cases fuel <;> rfl
  | cons c s' ih =>
    intro fuel hlen
    have hstep : utf8Bytes (c :: s') = utf8Char c ++ utf8Bytes s' := by
      simp [utf8Bytes]
    rw [hstep] at hlen ⊢
    have hlen1 : 0 < (utf8Char c).length := utf8Char_length_pos c
    cases fuel with
    | zero => rw [List.length_append] at hlen; omega
    | succ f =>
      have hne : utf8Char c ++ utf8Bytes s' ≠ [] := by
        intro h
        rw [List.append_eq_nil] at h
        rw [h.1] at hlen1
        simp at hlen1
      simp only [utf8DecodeF]
      rw [if_neg hne, utf8DecodeOne_encode]
      show (utf8DecodeF f (utf8Bytes s')).map (fun cs => c :: cs) = some (c :: s')
      rw [ih f (by rw [List.length_append] at hlen; omega)]
      rfl

theorem utf8Decode_encode (s : List Char) : utf8Decode (utf8Bytes s) = some s :=
  utf8DecodeF_encode s (utf8Bytes s).length le_rfl

/-! ## Base64 (Python `base64.b64encode` / `base64.b64decode`)

`b64decode` wraps `binascii.a2b_base64` in its default non-strict mode, which
skips characters outside the alphabet, stops once a quad is completed by
padding, and raises (here: `none`) when the data characters leave an
incomplete quad. -/

/-- The standard base64 alphabet, index 0-63. -/
def b64Alpha (i : Nat) : Char :=
  if i < 26 then Char.ofNat (65 + i)
  else if i < 52 then Char.ofNat (71 + i)
  else if i < 62 then Char.ofNat (i - 4)
  else if i = 62 then '+'
  else '/'

/-- Index of a character in the base64 alphabet, `none` for other characters. -/
def b64Index (c : Char) : Option Nat :=
  if 65 ≤ c.toNat ∧ c.toNat ≤ 90 then some (c.toNat - 65)
  else if 97 ≤ c.toNat ∧ c.toNat ≤ 122 then some (c.toNat - 71)
  else if 48 ≤ c.toNat ∧ c.toNat ≤ 57 then some (c.toNat + 4)
  else if c = '+' then some 62
  else if c = '/' then some 63
  else none

/-- Python `base64.b64encode` on a byte string (values `< 256`): three bytes
per quad, `=`-padded final group. -/
def b64encode : List Nat → List Char
  | [] => []
  | [b] => [b64Alpha (b / 4), b64Alpha (b % 4 * 16), '=', '=']
  | [b1, b2] =>
    [b64Alpha (b1 / 4), b64Alpha (b1 % 4 * 16 + b2 / 16), b64Alpha (b2 % 16 * 4), '=']
  | b1 :: b2 :: b3 :: rest =>
    b64Alpha (b1 / 4) :: b64Alpha (b1 % 4 * 16 + b2 / 16) ::
      b64Alpha (b2 % 16 * 4 + b3 / 64) :: b64Alpha (b3 % 64) :: b64encode rest

/-- The quad-position state machine of `binascii.a2b_base64` (non-strict
mode): arguments are input, quad position, pending bits, consecutive pads,
and output accumulator (reversed). A `=` with quad position ≥ 2 completing
four slots ends decoding; other invalid characters are skipped; input
exhausted with a mid-quad position is an error. -/
def a2bBase64 : List Char → Nat → Nat → Nat → List Nat → Option (List Nat)
  | [], quadPos, _, _, acc =>
    if quadPos = 0 then some acc.reverse else none
  | c :: rest, quadPos, leftchar, pads, acc =>
    if c = '=' then
      if 2 ≤ quadPos then
        if 4 ≤ quadPos + (pads + 1) then some acc.reverse
        else a2bBase64 rest quadPos leftchar (pads + 1) acc
      else a2bBase64 rest quadPos leftchar pads acc
    else
      match b64Index c with
      | none => a2bBase64 rest quadPos leftchar pads acc
      | some d =>
        match quadPos with
        | 0 => a2bBase64 rest 1 d 0 acc
        | 1 => a2bBase64 rest 2 (d % 16) 0 ((leftchar * 4 + d / 16) :: acc)
        | 2 => a2bBase64 rest 3 (d % 4) 0 ((leftchar * 16 + d / 4) :: acc)
        | _ => a2bBase64 rest 0 0 0 ((leftchar * 64 + d) :: acc)

/-- Python `base64.b64decode` (default non-strict mode). -/
def b64decode (s : List Char) : Option (List Nat) := a2bBase64 s 0 0 0 []

theorem b64Index_alpha : ∀ i, i < 64 → b64Index (b64Alpha i) = some i := by
  decide

theorem b64Alpha_ne_pad : ∀ i, i < 64 → b64Alpha i ≠ '=' := by
  decide

theorem a2bBase64_encode (bs : List Nat) : ∀ acc, (∀ b ∈ bs, b < 256) →
    a2bBase64 (b64encode bs) 0 0 0 acc = some (acc.reverse ++ bs) := by
  induction bs using b64encode.induct with
  | case1 =>
    intro acc _
    simp [b64encode, a2bBase64]
  | case2 b =>
    intro acc hlt
    have hb : b < 256 := hlt b (List.mem_singleton.mpr rfl)
    simp only [b64encode]
    rw [a2bBase64, if_neg (b64Alpha_ne_pad _ (by omega)),
      b64Index_alpha _ (by omega)]
    show a2bBase64 (b64Alpha (b % 4 * 16) :: ['=', '=']) 1 (b / 4) 0 acc = _
    rw [a2bBase64, if_neg (b64Alpha_ne_pad _ (by omega)),
      b64Index_alpha _ (by omega)]
    show a2bBase64 ['=', '='] 2 (b % 4 * 16 % 16) 0 ((b / 4 * 4 + b % 4 * 16 / 16) :: acc)
        = _
    rw [a2bBase64, if_pos rfl, if_pos (by omega), if_neg (by omega)]
    show a2bBase64 ['='] 2 (b % 4 * 16 % 16) 1 ((b / 4 * 4 + b % 4 * 16 / 16) :: acc) = _
    rw [a2bBase64, if_pos rfl, if_pos (by omega), if_pos (by omega)]
    have hbyte : b / 4 * 4 + b % 4 * 16 / 16 = b := by omega
    rw [hbyte]
    simp
  | case3 b1 b2 =>
    intro acc hlt
    have hb1 : b1 < 256 := hlt b1 (by simp)
    have hb2 : b2 < 256 := hlt b2 (by simp)
    simp only [b64encode]
    rw [a2bBase64, if_neg (b64Alpha_ne_pad _ (by omega)),
      b64Index_alpha _ (by omega)]
    show a2bBase64 (b64Alpha (b1 % 4 * 16 + b2 / 16) :: [b64Alpha (b2 % 16 * 4), '='])
        1 (b1 / 4) 0 acc = _
    rw [a2bBase64, if_neg (b64Alpha_ne_pad _ (by omega)),
      b64Index_alpha _ (by omega)]
    show a2bBase64 [b64Alpha (b2 % 16 * 4), '='] 2 ((b1 % 4 * 16 + b2 / 16) % 16) 0
        ((b1 / 4 * 4 + (b1 % 4 * 16 + b2 / 16) / 16) :: acc) = _
    rw [a2bBase64, if_neg (b64Alpha_ne_pad _ (by omega)),
      b64Index_alpha _ (by omega)]
    show a2bBase64 ['='] 3 (b2 % 16 * 4 % 4) 0
        (((b1 % 4 * 16 + b2 / 16) % 16 * 16 + b2 % 16 * 4 / 4) ::
          (b1 / 4 * 4 + (b1 % 4 * 16 + b2 / 16) / 16) :: acc) = _
    rw [a2bBase64, if_pos rfl, if_pos (by omega), if_pos (by omega)]
    have he1 : b1 / 4 * 4 + (b1 % 4 * 16 + b2 / 16) / 16 = b1 := by omega
    have he2 : (b1 % 4 * 16 + b2 / 16) % 16 * 16 + b2 % 16 * 4 / 4 = b2 := by omega
    rw [he1, he2]
    simp
  | case4 b1 b2 b3 rest ih =>
    intro acc hlt
    have hb1 : b1 < 256 := hlt b1 (by simp)
    have hb2 : b2 < 256 := hlt b2 (by simp)
    have hb3 : b3 < 256 := hlt b3 (by simp)
    simp only [b64encode]
    rw [a2bBase64, if_neg (b64Alpha_ne_pad _ (by omega)),
      b64Index_alpha _ (by omega)]
    show a2bBase64 (b64Alpha (b1 % 4 * 16 + b2 / 16) :: b64Alpha (b2 % 16 * 4 + b3 / 64)
        :: b64Alpha (b3 % 64) :: b64encode rest) 1 (b1 / 4) 0 acc = _
    rw [a2bBase64, if_neg (b64Alpha_ne_pad _ (by omega)),
      b64Index_alpha _ (by omega)]
    show a2bBase64 (b64Alpha (b2 % 16 * 4 + b3 / 64) :: b64Alpha (b3 % 64)
        :: b64encode rest) 2 ((b1 % 4 * 16 + b2 / 16) % 16) 0
        ((b1 / 4 * 4 + (b1 % 4 * 16 + b2 / 16) / 16) :: acc) = _
    rw [a2bBase64, if_neg (b64Alpha_ne_pad _ (by omega)),
      b64Index_alpha _ (by omega)]
    show a2bBase64 (b64Alpha (b3 % 64) :: b64encode rest) 3 ((b2 % 16 * 4 + b3 / 64) % 4)
        0 (((b1 % 4 * 16 + b2 / 16) % 16 * 16 + (b2 % 16 * 4 + b3 / 64) / 4) ::
          (b1 / 4 * 4 + (b1 % 4 * 16 + b2 / 16) / 16) :: acc) = _
    rw [a2bBase64, if_neg (b64Alpha_ne_pad _ (by omega)),
      b64Index_alpha _ (by omega)]
    show a2bBase64 (b64encode rest) 0 0 0
        (((b2 % 16 * 4 + b3 / 64) % 4 * 64 + b3 % 64) ::
          ((b1 % 4 * 16 + b2 / 16) % 16 * 16 + (b2 % 16 * 4 + b3 / 64) / 4) ::
          (b1 / 4 * 4 + (b1 % 4 * 16 + b2 / 16) / 16) :: acc) = _
    have he1 : b1 / 4 * 4 + (b1 % 4 * 16 + b2 / 16) / 16 = b1 := by omega
    have he2 : (b1 % 4 * 16 + b2 / 16) % 16 * 16 + (b2 % 16 * 4 + b3 / 64) / 4 = b2 := by
      omega
    have he3 : (b2 % 16 * 4 + b3 / 64) % 4 * 64 + b3 % 64 = b3 := by omega
    rw [he1, he2, he3, ih (b3 :: b2 :: b1 :: acc) (fun b hb => hlt b (by simp [hb]))]
    simp

theorem b64decode_encode (bs : List Nat) (h : ∀ b ∈ bs, b < 256) :
    b64decode (b64encode bs) = some bs := by
  rw [b64decode, a2bBase64_encode bs [] h]
  rfl

/-! ## File handles (`_get_file_id` / `_decode_file_id`,
cache_web_server.py lines 504-537) -/

/-- `_get_file_id`: base64 of the UTF-8 bytes of `f"{squid_id}:{file_name}"`. -/
def encodeFileId (squid_id file_name : List Char) : List Char :=
  b64encode (utf8Bytes (squid_id ++ ':' :: file_name))

/-- Python `decoded.split(":", 1)` followed by the length-2 check of
`_decode_file_id`: `none` when no colon occurs, otherwise the parts before
and after the first colon. -/
def splitColon1 (s : List Char) : Option (List Char × List Char) :=
  if ':' ∈ s then
    some (s.takeWhile (fun c => c != ':'), (s.dropWhile (fun c => c != ':')).drop 1)
  else none

/-- `_decode_file_id`: base64-decode, UTF-8-decode, split on the first colon;
every failure along the way is caught and turned into `none`. -/
def decodeFileId (file_id : List Char) : Option (List Char × List Char) :=
  (b64decode file_id).bind (fun bs => (utf8Decode bs).bind splitColon1)

theorem takeWhile_append_colon (sid fn : List Char) (h : ':' ∉ sid) :
    (sid ++ ':' :: fn).takeWhile (fun c => c != ':') = sid := by
  induction sid with
  | nil => simp [List.takeWhile]
  | cons c rest ih =>
    have hc : c ≠ ':' := fun hc => h (hc ▸ List.mem_cons_self c rest)
    have hr : ':' ∉ rest := fun hm => h (List.mem_cons_of_mem c hm)
    simp only [List.cons_append, List.takeWhile_cons]
    rw [if_pos (by simp [hc]), ih hr]

theorem dropWhile_append_colon (sid fn : List Char) (h : ':' ∉ sid) :
    (sid ++ ':' :: fn).dropWhile (fun c => c != ':') = ':' :: fn := by
  induction sid with
  | nil => simp [List.dropWhile]
  | cons c rest ih =>
    have hc : c ≠ ':' := fun hc => h (hc ▸ List.mem_cons_self c rest)
    have hr : ':' ∉ rest := fun hm => h (List.mem_cons_of_mem c hm)
    simp only [List.cons_append, List.dropWhile_cons]
    rw [if_pos (by simp [hc]), ih hr]

theorem splitColon1_append (sid fn : List Char) (h : ':' ∉ sid) :
    splitColon1 (sid ++ ':' :: fn) = some (sid, fn) := by
  have hmem : ':' ∈ sid ++ ':' :: fn :=
    List.mem_append_right _ (List.mem_cons_self _ _)
  rw [splitColon1, if_pos hmem, takeWhile_append_colon sid fn h,
    dropWhile_append_colon sid fn h]
  rfl

theorem decode_encode_fileId (sid fn : List Char) (h : ':' ∉ sid) :
    decodeFileId (encodeFileId sid fn) = some (sid, fn) := by
  rw [decodeFileId, encodeFileId,
    b64decode_encode _ (utf8Bytes_lt _), Option.some_bind,
    utf8Decode_encode, Option.some_bind]
  exact splitColon1_append sid fn h

/-! ## Paths and the download endpoint (`download_file`,
cache_web_server.py lines 147-179) -/

/-- `os.path.join` of two components (posixpath): an absolute second
component replaces the first; otherwise they are joined with a single `/`. -/
def pjoin (a b : List Char) : List Char :=
  if b.head? = some '/' then b
  else if a = [] then b
  else if a.getLast? = some '/' then a ++ b
  else a ++ '/' :: b

/-- Split a path string on `/` characters. -/
def splitSlash : List Char → List (List Char)
  | [] => [[]]
  | c :: rest =>
    if c = '/' then [] :: splitSlash rest
    else
      match splitSlash rest with
      | [] => [[c]]
      | s :: ss => (c :: s) :: ss

/-- Lexical resolution of a split absolute path: empty and `.` segments
vanish, `..` removes the previous segment (staying at the root). Together
with `splitSlash` this models `os.path.realpath` on an absolute path that
traverses no symlinks. -/
def normSegs (segs : List (List Char)) : List (List Char) :=
  segs.foldl
    (fun acc seg =>
      if seg = [] ∨ seg = ['.'] then acc
      else if seg = ['.', '.'] then acc.dropLast
      else acc ++ [seg])
    []

/-- `os.path.realpath` on an absolute, symlink-free path. -/
def realpathNS (p : List Char) : List Char :=
  '/' :: joinPath (normSegs (splitSlash p))

/-- The specification's notion of the resolved path lying within the cache
root: the resolved root's segment sequence is a prefix of the resolved
path's segment sequence. -/
def withinRoot (root p : List Char) : Prop :=
  normSegs (splitSlash root) <+: normSegs (splitSlash p)

inductive DlResult where
  | invalid400
  | denied403
  | notFound404
  | served (path : List Char)
deriving DecidableEq

/-- The `download_file` route: decode the handle (failure → HTTP 400), build
`os.path.join(cache_root, squid_id, file_name)`, reject with HTTP 403 when
`os.path.realpath` of the file path does not *string*-start with the realpath
of the cache root, answer 404 when the file is absent, and otherwise serve
the file's bytes. `isFile` is the state of `os.path.isfile`. -/
def download_file (cacheRoot fileId : List Char) (isFile : List Char → Bool) :
    DlResult :=
  match decodeFileId fileId with
  | none => .invalid400
  | some (sid, fn) =>
    let filePath := pjoin (pjoin cacheRoot sid) fn
    if (realpathNS cacheRoot).isPrefixOf (realpathNS filePath) then
      if isFile filePath then .served filePath else .notFound404
    else .denied403

/-- C1: the security check uses `real_path.startswith(cache_real_path)` on
path *strings*, which also accepts sibling directories whose name merely
extends the cache root's name. With cache root `/tmp/cache`, the handle for
squid id `../cachemate` and file `secret` resolves to
`/tmp/cachemate/secret` — outside the cache root — yet the string prefix
check passes and the file is served instead of being rejected with 403. -/
theorem download_prefix_bypass :
    download_file ['/', 't', 'm', 'p', '/', 'c', 'a', 'c', 'h', 'e']
        (encodeFileId ['.', '.', '/', 'c', 'a', 'c', 'h', 'e', 'm', 'a', 't', 'e']
          ['s', 'e', 'c', 'r', 'e', 't'])
        (fun _ => true)
      = DlResult.served
          ['/', 't', 'm', 'p', '/', 'c', 'a', 'c', 'h', 'e', '/', '.', '.', '/',
            'c', 'a', 'c', 'h', 'e', 'm', 'a', 't', 'e', '/', 's', 'e', 'c', 'r', 'e', 't'] ∧
    realpathNS
        ['/', 't', 'm', 'p', '/', 'c', 'a', 'c', 'h', 'e', '/', '.', '.', '/',
          'c', 'a', 'c', 'h', 'e', 'm', 'a', 't', 'e', '/', 's', 'e', 'c', 'r', 'e', 't']
      = ['/', 't', 'm', 'p', '/', 'c', 'a', 'c', 'h', 'e', 'm', 'a', 't', 'e', '/',
          's', 'e', 'c', 'r', 'e', 't'] ∧
    ¬ withinRoot ['/', 't', 'm', 'p', '/', 'c', 'a', 'c', 'h', 'e']
        ['/', 't', 'm', 'p', '/', 'c', 'a', 'c', 'h', 'e', '/', '.', '.', '/',
          'c', 'a', 'c', 'h', 'e', 'm', 'a', 't', 'e', '/', 's', 'e', 'c', 'r', 'e', 't'] := by
  refine ⟨by decide, by decide, by unfold withinRoot; decide⟩

/-- C5 (amended): decoding inverts encoding for every (squid_id, file_name)
pair whose squid id contains no colon (the file name may contain colons: the
split uses maxsplit 1), and decoding is total — a handle that fails to decode
makes the download endpoint answer HTTP 400 before any filesystem access.
Not every tampered handle fails to decode, see the counterexample. -/
theorem handle_roundtrip_amended :
    (∀ sid fn : List Char, ':' ∉ sid →
      decodeFileId (encodeFileId sid fn) = some (sid, fn)) ∧
    (∀ root fid isFile, decodeFileId fid = none →
      download_file root fid isFile = DlResult.invalid400) := by
  constructor
  · exact decode_encode_fileId
  · intro root fid isFile h
    simp [download_file, h]

theorem handle_roundtrip_amended_witness :
    (':' ∉ (['a', 'b'] : List Char)) ∧
      decodeFileId (encodeFileId ['a', 'b'] ['c', ':', 'd'])
        = some (['a', 'b'], ['c', ':', 'd']) :=
  ⟨by decide, handle_roundtrip_amended.1 ['a', 'b'] ['c', ':', 'd'] (by decide)⟩

theorem b64Alpha_mod4_ne_x (b : Nat) : b64Alpha (b % 4 * 16) ≠ 'x' := by
  have h4 : b % 4 = 0 ∨ b % 4 = 1 ∨ b % 4 = 2 ∨ b % 4 = 3 := by omega
  rcases h4 with h | h | h | h <;> rw [h] <;> decide

theorem encode_ne_tampered (bs : List Nat) (h : ∀ b ∈ bs, b < 256) :
    b64encode bs ≠ ['Y', 'T', 'p', 'i', 'Y', 'x', '=', '='] := by
  match bs with
  | [] => simp [b64encode]
  | [b] =>
    intro hEq
    have hlen := congrArg List.length hEq
    simp [b64encode] at hlen
  | [b1, b2] =>
    intro hEq
    have hlen := congrArg List.length hEq
    simp [b64encode] at hlen
  | b1 :: b2 :: b3 :: rest =>
    intro hEq
    simp only [b64encode, List.cons.injEq] at hEq
    have htail : b64encode rest = ['Y', 'x', '=', '='] := hEq.2.2.2.2
    have hrest : ∀ b ∈ rest, b < 256 := fun b hb => h b (by simp [hb])
    match rest with
    | [] => simp [b64encode] at htail
    | [b] =>
      simp only [b64encode, List.cons.injEq] at htail
      exact b64Alpha_mod4_ne_x b htail.2.1
    | [b, b'] =>
      simp only [b64encode, List.cons.injEq] at htail
      exact b64Alpha_ne_pad (b' % 16 * 4)
        (by have : b' < 256 := hrest b' (by simp); omega) htail.2.2.1
    | b :: b' :: b'' :: rest2 =>
      simp only [b64encode, List.cons.injEq] at htail
      exact b64Alpha_ne_pad (b' % 16 * 4 + b'' / 64)
        (by
          have hb' : b' < 256 := hrest b' (by simp)
          have hb'' : b'' < 256 := hrest b'' (by simp)
          omega)
        htail.2.2.1

/-- C5 (counterexample): `YTpiYx==` is not the encoding of any
(squid_id, file_name) pair — a canonical encoding ending in `==` has the low
four bits of its final data character zero, and `x` does not — yet decoding
it succeeds with `("a", "bc")` because `b64decode` silently discards the
nonzero trailing bits. So decoding a tampered/garbage handle does not always
fail with the invalid-handle outcome, contrary to the claim. -/
theorem handle_tampered_ce :
    (∀ sid fn : List Char,
      encodeFileId sid fn ≠ ['Y', 'T', 'p', 'i', 'Y', 'x', '=', '=']) ∧
    decodeFileId ['Y', 'T', 'p', 'i', 'Y', 'x', '=', '=']
      = some (['a'], ['b', 'c']) := by
  constructor
  · intro sid fn
    exact encode_ne_tampered _ (utf8Bytes_lt _)
  · decide

/-! ## Listing an entry (`get_squid_files`, cache_web_server.py
lines 119-145) -/

structure FileRec where
  id : List Char
  name : List Char
deriving DecidableEq

/-- The records built by the listing loop: one per directory item whose
`os.path.isfile` flag is true, carrying the handle and the flat stored
name. -/
def fileRecords (squid_id : List Char) (items : List (List Char × Bool)) :
    List FileRec :=
  items.filterMap
    (fun p => if p.2 then some ⟨encodeFileId squid_id p.1, p.1⟩ else none)

/-- The `get_squid_files` route: `listing` is `none` when the entry directory
does not exist (the route then answers an empty list with HTTP 200), else the
directory entries with their `os.path.isfile` flag. -/
def get_squid_files (listing : Option (List (List Char × Bool)))
    (squid_id : List Char) : List FileRec × Nat :=
  match listing with
  | none => ([], 200)
  | some items => (fileRecords squid_id items, 200)

theorem fileRecords_length (sid : List Char) (items : List (List Char × Bool)) :
    (fileRecords sid items).length = (items.filter (fun p => p.2)).length := by
  induction items with
  | nil => rfl
  | cons p rest ih =>
    by_cases hp : p.2 <;>
      simp [fileRecords, List.filterMap_cons, List.filter_cons, hp] at ih ⊢ <;>
      exact ih

theorem fileRecords_mem (sid : List Char) (items : List (List Char × Bool)) :
    ∀ r ∈ fileRecords sid items,
      (r.name, true) ∈ items ∧ r.id = encodeFileId sid r.name := by
  induction items with
  | nil => intro r hr; simp [fileRecords] at hr
  | cons p rest ih =>
    intro r hr
    by_cases hp : p.2
    · rw [fileRecords, List.filterMap_cons] at hr
      simp only [hp, if_true] at hr
      rcases List.mem_cons.mp hr with hr | hr
      · subst hr
        refine ⟨?_, rfl⟩
        show (p.1, true) ∈ p :: rest
        obtain ⟨a, b⟩ := p
        have hb : b = true := hp
        subst hb
        exact List.mem_cons_self _ _
      · obtain ⟨h1, h2⟩ := ih r hr
        exact ⟨List.mem_cons_of_mem p h1, h2⟩
    · rw [fileRecords, List.filterMap_cons] at hr
      simp only [hp, if_false] at hr
      obtain ⟨h1, h2⟩ := ih r hr
      exact ⟨List.mem_cons_of_mem p h1, h2⟩

/-- C6 (counterexample): the claim says each returned record pairs the handle
with the *logical* name obtained by unflattening the flat stored name. The
route returns the flat stored name itself: for a stored file `a_._b` the
returned name is `a_._b`, while the logical relative path it represents is
`a/b`. -/
theorem get_squid_files_flat_ce :
    ((get_squid_files (some [(['a', '_', '.', '_', 'b'], true)]) ['s']).1.map
        FileRec.name
      = [['a', '_', '.', '_', 'b']]) ∧
    unflattenPath ['a', '_', '.', '_', 'b'] ≠ ['a', '_', '.', '_', 'b'] := by
  refine ⟨by decide, by decide⟩

/-- C6 (amended): listing a non-existent entry yields an empty sequence with
HTTP 200 (success, not an error); listing an existing entry yields HTTP 200
and exactly one record per directory item that is a regular file, each record
pairing the file's handle `_get_file_id(squid_id, name)` with the *flat*
stored name (unflattening to the logical relative path is done by the
retrieval client, not by this operation). -/
theorem get_squid_files_amended (squid_id : List Char) :
    (get_squid_files none squid_id = ([], 200)) ∧
    (∀ items, (get_squid_files (some items) squid_id).2 = 200 ∧
      (get_squid_files (some items) squid_id).1.length
        = (items.filter (fun p => p.2)).length ∧
      (∀ r ∈ (get_squid_files (some items) squid_id).1,
        (r.name, true) ∈ items ∧ r.id = encodeFileId squid_id r.name)) :=
  ⟨rfl, fun items =>
    ⟨rfl, fileRecords_length squid_id items, fileRecords_mem squid_id items⟩⟩

theorem get_squid_files_amended_witness :
    (⟨encodeFileId ['s'] ['f'], ['f']⟩ : FileRec) ∈
        (get_squid_files (some [(['f'], true), (['d'], false)]) ['s']).1 ∧
      ((['f'] : List Char), true) ∈ [(['f'], true), (['d'], false)] :=
  ⟨by decide,
    (((get_squid_files_amended ['s']).2 [(['f'], true), (['d'], false)]).2.2
      ⟨encodeFileId ['s'] ['f'], ['f']⟩ (by decide)).1⟩



/-! ## Upload endpoint (`upload_files`, cache_web_server.py lines 181-213)

For each file part with a non-empty filename the route stores
`secure_filename(file_obj.filename)` under the entry directory
`os.path.join(cache_root, squid_id)`. `secure_filename` is werkzeug's
(werkzeug/utils.py): NFKD-normalize and project to ASCII, replace the path
separator with a space (`os.path.altsep` is None on POSIX), join the
whitespace-split words with `_`, delete every character outside
`[A-Za-z0-9_.-]`, and strip leading/trailing `.` and `_`. The NFKD stage only
rewrites code points before the ASCII projection and is modelled as the
projection alone; the properties proved here depend only on the final
character filter and strip. -/

/-- Characters kept by werkzeug's `_filename_ascii_strip_re`: `[A-Za-z0-9_.-]`. -/
def allowedFnChar (c : Char) : Bool :=
  (65 ≤ c.toNat && c.toNat ≤ 90) || (97 ≤ c.toNat && c.toNat ≤ 122) ||
    (48 ≤ c.toNat && c.toNat ≤ 57) || c == '_' || c == '.' || c == '-'

/-- Whitespace for Python `str.split()` with no arguments (ASCII range). -/
def isPyWs (c : Char) : Bool :=
  c == ' ' || c == '\t' || c == '\n' || c == '\r' || c == '\x0b' || c == '\x0c'

/-- Python `str.split()` with no arguments: maximal non-whitespace runs, no
empty groups. -/
def splitWs : List Char → List (List Char)
  | [] => []
  | c :: rest =>
    if isPyWs c then splitWs rest
    else
      match rest with
      | [] => [[c]]
      | d :: _ =>
        if isPyWs d then [c] :: splitWs rest
        else
          match splitWs rest with
          | [] => [[c]]
          | g :: gs => (c :: g) :: gs

/-- Python `str.strip("._")`. -/
def stripDotUnderscore (s : List Char) : List Char :=
  ((s.dropWhile (fun c => c == '.' || c == '_')).reverse.dropWhile
    (fun c => c == '.' || c == '_')).reverse

/-- werkzeug's `secure_filename` as called by the upload route. -/
def secure_filename (filename : List Char) : List Char :=
  let ascii := filename.filter (fun c => c.toNat < 128)
  let nosep := ascii.map (fun c => if c = '/' then ' ' else c)
  let joined := List.intercalate ['_'] (splitWs nosep)
  stripDotUnderscore (joined.filter allowedFnChar)

/-- The names saved by the `upload_files` route: the parts with non-empty
filenames, each passed through `secure_filename`. -/
def upload_files_saved (parts : List (List Char)) : List (List Char) :=
  (parts.filter (fun nm => !nm.isEmpty)).map secure_filename

/-- `os.path.dirname`. -/
def dirname (p : List Char) : List Char :=
  ((p.reverse.dropWhile (fun c => c != '/')).drop 1).reverse

theorem mem_stripDotUnderscore (s : List Char) :
    ∀ c ∈ stripDotUnderscore s, c ∈ s := by
  intro c hc
  rw [stripDotUnderscore, List.mem_reverse] at hc
  have h1 := (List.dropWhile_sublist (l := (s.dropWhile
    (fun c => c == '.' || c == '_')).reverse)
    (p := fun c => c == '.' || c == '_')).subset hc
  rw [List.mem_reverse] at h1
  exact (List.dropWhile_sublist (l := s)
    (p := fun c => c == '.' || c == '_')).subset h1

theorem secure_filename_allowed (nm : List Char) :
    ∀ c ∈ secure_filename nm, allowedFnChar c = true := by
  intro c hc
  have h1 := mem_stripDotUnderscore _ c hc
  exact (List.mem_filter.mp h1).2

theorem dropWhile_append_all (p : Char → Bool) (xs ys : List Char)
    (h : ∀ c ∈ xs, p c = true) :
    (xs ++ ys).dropWhile p = ys.dropWhile p := by
  induction xs with
  | nil => rfl
  | cons c rest ih =>
    rw [List.cons_append, List.dropWhile_cons,
      if_pos (h c (List.mem_cons_self c rest))]
    exact ih (fun x hx => h x (List.mem_cons_of_mem c hx))

theorem dirname_join (d f : List Char) (hf : '/' ∉ f) :
    dirname (d ++ '/' :: f) = d := by
  rw [dirname, List.reverse_append]
  have hrev : ('/' :: f).reverse = f.reverse ++ ['/'] := by
    simp
  rw [hrev, List.append_assoc,
    dropWhile_append_all _ f.reverse (['/'] ++ d.reverse)
      (fun c hc => by
        rw [List.mem_reverse] at hc
        simp only [bne_iff_ne, ne_eq, decide_eq_true_eq]
        exact fun hceq => hf (hceq ▸ hc))]
  rw [List.cons_append, List.dropWhile_cons]
  rw [if_neg (by simp)]
  simp

/-- C10: the name stored for every accepted file part (non-empty filename) is
`secure_filename(providedName)`: it contains only characters from
`[A-Za-z0-9_.-]` — in particular no path separator — so the written path
`os.path.join(squid_dir, storedName)` lies directly inside the entry
directory (its `os.path.dirname`, the argument of the `makedirs` call, is the
entry directory itself); and the saved names returned in the response can
differ from the names the client supplied. -/
theorem upload_secure_names :
    (∀ parts, upload_files_saved parts
        = (parts.filter (fun nm => !nm.isEmpty)).map secure_filename) ∧
    (∀ nm : List Char, ∀ c ∈ secure_filename nm,
      allowedFnChar c = true ∧ c ≠ '/') ∧
    (∀ squidDir nm : List Char,
      dirname (squidDir ++ '/' :: secure_filename nm) = squidDir) ∧
    (∃ nm : List Char, nm ≠ [] ∧ secure_filename nm ≠ nm) := by
  refine ⟨fun _ => rfl, ?_, ?_, ?_⟩
  · intro nm c hc
    have hall := secure_filename_allowed nm c hc
    refine ⟨hall, ?_⟩
    intro hceq
    subst hceq
    simp [allowedFnChar] at hall
  · intro squidDir nm
    refine dirname_join squidDir (secure_filename nm) ?_
    intro hmem
    have hall := secure_filename_allowed nm '/' hmem
    simp [allowedFnChar] at hall
  · exact ⟨['a', '/', 'b'], by decide, by decide⟩

theorem upload_secure_names_witness :
    'b' ∈ secure_filename ['a', '/', 'b'] ∧
      allowedFnChar 'b' = true ∧ 'b' ≠ '/' :=
  ⟨by decide, upload_secure_names.2.1 ['a', '/', 'b'] 'b' (by decide)⟩

/-! ## Catalog scanner (`scan_for_squid_ids`, cache_web_server.py
lines 277-318)

The dashboard scanner walks the cache root: for each subdirectory, it runs
`os.walk` over the subtree; if any regular file is found anywhere beneath, the
subdirectory is recorded as a single entry (path from the root as key, the
full file inventory with count and summed size) and not recursed into;
otherwise the scanner recurses into it. Directory trees are modelled by the
mutually inductive `FSTree`/`FSForest` (regular files with a name and size,
directories with a name and children). -/

mutual
inductive FSTree where
  | file (name : List Char) (size : Nat)
  | dir (name : List Char) (children : FSForest)
inductive FSForest where
  | nil
  | cons (hd : FSTree) (tl : FSForest)
end

def FSForest.toList : FSForest → List FSTree
  | .nil => []
  | .cons t rest => t :: rest.toList

/-- The name of a directory entry. -/
def nodeName : FSTree → List Char
  | .file n _ => n
  | .dir n _ => n

mutual
/-- Files found by `os.walk` over a forest: (fname, path relative to the walk
root as segments, size), matching the `files.append({...})` records. -/
def walkFiles : FSForest → List (List Char × List (List Char) × Nat)
  | .nil => []
  | .cons t rest => walkFilesT t ++ walkFiles rest
def walkFilesT : FSTree → List (List Char × List (List Char) × Nat)
  | .file n sz => [(n, [n], sz)]
  | .dir n ch => (walkFiles ch).map (fun p => (p.1, n :: p.2.1, p.2.2))
end

mutual
/-- The `has_files` flag: `os.walk` found at least one regular file. -/
def hasFiles : FSTree → Bool
  | .file _ _ => true
  | .dir _ ch => hasFilesF ch
def hasFilesF : FSForest → Bool
  | .nil => false
  | .cons t rest => hasFiles t || hasFilesF rest
end

/-- The accumulated `total_size`. -/
def sumSizes (files : List (List Char × List (List Char) × Nat)) : Nat :=
  (files.map (fun p => p.2.2)).sum

structure ScanEntry where
  squid_id : List (List Char)
  files : List (List Char × List (List Char) × Nat)
  file_count : Nat
  total_size : Nat
deriving DecidableEq

/-- The record appended for a directory whose subtree contains files. -/
def mkEntry (pre : List (List Char)) (n : List Char) (ch : FSForest) : ScanEntry :=
  ⟨pre ++ [n], walkFiles ch, (walkFiles ch).length, sumSizes (walkFiles ch)⟩

mutual
/-- `scan_for_squid_ids(base_path, prefix)` over the listing of `base_path`. -/
def scanF (pre : List (List Char)) : FSForest → List ScanEntry
  | .nil => []
  | .cons t rest => scanT pre t ++ scanF pre rest
/-- The loop body for a single directory item: non-directories are skipped;
a directory with files becomes one entry; otherwise the scan recurses. -/
def scanT (pre : List (List Char)) : FSTree → List ScanEntry
  | .file _ _ => []
  | .dir n ch =>
    if hasFilesF ch then [mkEntry pre n ch] else scanF (pre ++ [n]) ch
end

/-- `PathDir l p ch`: following the segments of `p` from the forest `l`
through directory entries reaches a directory whose children are `ch`. -/
def PathDir : FSForest → List (List Char) → FSForest → Prop
  | _, [], _ => False
  | l, [n], ch => FSTree.dir n ch ∈ l.toList
  | l, n :: p1 :: p2, ch =>
    ∃ ch', FSTree.dir n ch' ∈ l.toList ∧ PathDir ch' (p1 :: p2) ch

mutual
theorem scanT_file_free (pre : List (List Char)) (t : FSTree)
    (h : hasFiles t = false) : scanT pre t = [] := by
  match t with
  | .file n sz => exact absurd h (by simp [hasFiles])
  | .dir n ch =>
    have hch : hasFilesF ch = false := h
    rw [scanT, if_neg (by rw [hch]; simp)]
    exact scanF_file_free (pre ++ [n]) ch hch
theorem scanF_file_free (pre : List (List Char)) (l : FSForest)
    (h : hasFilesF l = false) : scanF pre l = [] := by
  match l with
  | .nil => rfl
  | .cons t rest =>
    have h2 : hasFiles t = false ∧ hasFilesF rest = false := by
      have := h
      rw [hasFilesF, Bool.or_eq_false_iff] at this
      exact this
    rw [scanF, scanT_file_free pre t h2.1, scanF_file_free pre rest h2.2]
    rfl
end

/-- The one-entry-per-qualifying-subdirectory shape of the scan: the
recursive branch contributes nothing, because a file-free subtree stays
file-free all the way down. -/
def entryOf (pre : List (List Char)) (t : FSTree) : Option ScanEntry :=
  match t with
  | .dir n ch => if hasFilesF ch then some (mkEntry pre n ch) else none
  | _ => none

theorem scanF_eq (pre : List (List Char)) :
    ∀ l : FSForest, scanF pre l = l.toList.filterMap (entryOf pre)
  | .nil => rfl
  | .cons t rest => by
    rw [scanF, FSForest.toList, List.filterMap_cons, scanF_eq pre rest]
    match t with
    | .file n sz => rfl
    | .dir n ch =>
      by_cases hch : hasFilesF ch
      · rw [scanT, if_pos hch]
        simp [entryOf, hch]
      · rw [scanT, if_neg hch,
          scanF_file_free (pre ++ [n]) ch (by simpa using hch)]
        simp [entryOf, hch]

theorem mem_scanF (pre : List (List Char)) (l : FSForest) (e : ScanEntry) :
    e ∈ scanF pre l ↔
      ∃ n ch, FSTree.dir n ch ∈ l.toList ∧ hasFilesF ch = true ∧
        e = mkEntry pre n ch := by
  rw [scanF_eq, List.mem_filterMap]
  constructor
  · rintro ⟨t, ht, hf⟩
    match t with
    | .file n sz => exact absurd hf (by simp [entryOf])
    | .dir n ch =>
      by_cases hch : hasFilesF ch
      · rw [entryOf, if_pos hch] at hf
        injection hf with hf
        exact ⟨n, ch, ht, hch, hf.symm⟩
      · rw [entryOf, if_neg hch] at hf
        cases hf
  · rintro ⟨n, ch, ht, hch, he⟩
    exact ⟨FSTree.dir n ch, ht, by rw [entryOf, if_pos hch, he]⟩

/-- C8: over any cache-root forest, every reported entry corresponds to a
directory (reached from the root) whose subtree contains at least one file,
keyed by its path from the root, with the full `os.walk` inventory, a file
count equal to the number of files anywhere beneath it, and a total size
equal to the sum of their sizes; a directory whose subtree contains no files
is never reported (under distinct sibling names); no reported key is a
proper prefix of another (an entry's internal subdirectories are never
separate entries); the entry for a given key is unique (under distinct
names); and every direct subdirectory of the root with files beneath it is
reported. -/
theorem scanner_spec (l : FSForest) :
    (∀ e ∈ scanF [] l, ∃ ch, PathDir l e.squid_id ch ∧ hasFilesF ch = true ∧
      e.files = walkFiles ch ∧ e.file_count = (walkFiles ch).length ∧
      e.total_size = sumSizes (walkFiles ch)) ∧
    ((l.toList.map nodeName).Nodup → ∀ p ch, PathDir l p ch →
      hasFilesF ch = false → p ∉ (scanF [] l).map ScanEntry.squid_id) ∧
    (∀ e ∈ scanF [] l, ∀ e' ∈ scanF [] l,
      e.squid_id <+: e'.squid_id → e.squid_id = e'.squid_id) ∧
    ((l.toList.map nodeName).Nodup → ∀ e ∈ scanF [] l, ∀ e' ∈ scanF [] l,
      e.squid_id = e'.squid_id → e = e') ∧
    (∀ n ch, FSTree.dir n ch ∈ l.toList → hasFilesF ch = true →
      mkEntry [] n ch ∈ scanF [] l) := by
  refine ⟨?_, ?_, ?_, ?_, ?_⟩
  · intro e he
    obtain ⟨n, ch, ht, hch, he'⟩ := (mem_scanF [] l e).mp he
    subst he'
    refine ⟨ch, ?_, hch, rfl, rfl, rfl⟩
    show PathDir l [n] ch
    exact ht
  · intro hnd p ch hpd hch hmem
    rw [List.mem_map] at hmem
    obtain ⟨e, he, hkey⟩ := hmem
    obtain ⟨n', ch', ht', hch', he'⟩ := (mem_scanF [] l e).mp he
    subst he'
    have hkey' : [n'] = p := hkey
    match p, hpd, hkey' with
    | [n], hpd, hkey' =>
      have hn : n' = n := by injection hkey'
      subst hn
      have hinj := List.inj_on_of_nodup_map hnd ht' hpd rfl
      injection hinj with _ hinj
      rw [hinj] at hch'
      rw [hch'] at hch
      cases hch
  · intro e he e' he'
    obtain ⟨n, ch, _, _, heq⟩ := (mem_scanF [] l e).mp he
    obtain ⟨n', ch', _, _, heq'⟩ := (mem_scanF [] l e').mp he'
    subst heq
    subst heq'
    intro hp
    exact hp.eq_of_length rfl
  · intro hnd e he e' he' hk
    obtain ⟨n, ch, ht, _, heq⟩ := (mem_scanF [] l e).mp he
    obtain ⟨n', ch', ht', _, heq'⟩ := (mem_scanF [] l e').mp he'
    subst heq
    subst heq'
    have hn : n = n' := by
      have : ([] : List (List Char)) ++ [n] = [] ++ [n'] := hk
      simpa using this
    subst hn
    have hinj := List.inj_on_of_nodup_map hnd ht ht' rfl
    injection hinj with _ hinj
    rw [hinj]
  · intro n ch ht hch
    exact (mem_scanF [] l (mkEntry [] n ch)).mpr ⟨n, ch, ht, hch, rfl⟩

theorem scanner_spec_witness :
    FSTree.dir ['t'] (FSForest.cons (FSTree.file ['x'] 5) FSForest.nil) ∈
        (FSForest.cons
          (FSTree.dir ['t'] (FSForest.cons (FSTree.file ['x'] 5) FSForest.nil))
          FSForest.nil).toList ∧
      mkEntry [] ['t'] (FSForest.cons (FSTree.file ['x'] 5) FSForest.nil) ∈
        scanF []
          (FSForest.cons
            (FSTree.dir ['t'] (FSForest.cons (FSTree.file ['x'] 5) FSForest.nil))
            FSForest.nil) := by
  refine ⟨List.mem_singleton.mpr rfl, ?_⟩
  exact (scanner_spec _).2.2.2.2 ['t'] _ (List.mem_singleton.mpr rfl) rfl

/-! ## MD5 (`hashlib.md5(...).hexdigest()`) -/

def w32 : Nat := 4294967296

def not32 (x : Nat) : Nat := 4294967295 - x % w32

def rotl32 (x s : Nat) : Nat := (x % w32) * 2 ^ s % w32 + x % w32 / 2 ^ (32 - s)

def mdF (b c d : Nat) : Nat := b &&& c ||| (not32 b &&& d)

def mdG (b c d : Nat) : Nat := d &&& b ||| (not32 d &&& c)

def mdH (b c d : Nat) : Nat := b ^^^ c ^^^ d

def mdI (b c d : Nat) : Nat := c ^^^ (b ||| not32 d)

def mdK : List Nat := [
  3614090360, 3905402710, 606105819, 3250441966, 4118548399, 1200080426, 2821735955, 4249261313,
  1770035416, 2336552879, 4294925233, 2304563134, 1804603682, 4254626195, 2792965006, 1236535329,
  4129170786, 3225465664, 643717713, 3921069994, 3593408605, 38016083, 3634488961, 3889429448,
  568446438, 3275163606, 4107603335, 1163531501, 2850285829, 4243563512, 1735328473, 2368359562,
  4294588738, 2272392833, 1839030562, 4259657740, 2763975236, 1272893353, 4139469664, 3200236656,
  681279174, 3936430074, 3572445317, 76029189, 3654602809, 3873151461, 530742520, 3299628645,
  4096336452, 1126891415, 2878612391, 4237533241, 1700485571, 2399980690, 4293915773, 2240044497,
  1873313359, 4264355552, 2734768916, 1309151649, 4149444226, 3174756917, 718787259, 3951481745]

def mdS : List Nat := [
  7, 12, 17, 22, 7, 12, 17, 22,
  7, 12, 17, 22, 7, 12, 17, 22,
  5, 9, 14, 20, 5, 9, 14, 20,
  5, 9, 14, 20, 5, 9, 14, 20,
  4, 11, 16, 23, 4, 11, 16, 23,
  4, 11, 16, 23, 4, 11, 16, 23,
  6, 10, 15, 21, 6, 10, 15, 21,
  6, 10, 15, 21, 6, 10, 15, 21]

/-- Little-endian serialization of `x` into `k` bytes. -/
def toBytesLE : Nat → Nat → List Nat
  | 0, _ => []
  | k + 1, x => x % 256 :: toBytesLE k (x / 256)

/-- MD5 padding: a 0x80 byte, zeros to 56 mod 64, the bit length in 8
little-endian bytes. -/
def padMsg (msg : List Nat) : List Nat :=
  msg ++ 128 :: List.replicate ((119 - msg.length % 64) % 64) 0 ++
    toBytesLE 8 (msg.length * 8)

/-- Split into 64-byte blocks (fuel makes the recursion structural). -/
def chunks64F : Nat → List Nat → List (List Nat)
  | 0, _ => []
  | _, [] => []
  | fuel + 1, l => l.take 64 :: chunks64F fuel (l.drop 64)

def chunks64 (l : List Nat) : List (List Nat) := chunks64F l.length l

/-- The i-th little-endian 32-bit word of a block. -/
def leWord (block : List Nat) (i : Nat) : Nat :=
  block.getD (4 * i) 0 + 256 * block.getD (4 * i + 1) 0 +
    65536 * block.getD (4 * i + 2) 0 + 16777216 * block.getD (4 * i + 3) 0

/-- One of the 64 MD5 rounds. -/
def md5Round (block : List Nat) (st : Nat × Nat × Nat × Nat) (i : Nat) :
    Nat × Nat × Nat × Nat :=
  let a := st.1
  let b := st.2.1
  let c := st.2.2.1
  let d := st.2.2.2
  let fg : Nat × Nat :=
    if i < 16 then (mdF b c d, i)
    else if i < 32 then (mdG b c d, (5 * i + 1) % 16)
    else if i < 48 then (mdH b c d, (3 * i + 5) % 16)
    else (mdI b c d, 7 * i % 16)
  let tmp := (fg.1 + a + mdK.getD i 0 + leWord block fg.2) % w32
  (d, (b + rotl32 tmp (mdS.getD i 0)) % w32, b, c)

/-- Process one 64-byte block. -/
def md5Block (st : Nat × Nat × Nat × Nat) (block : List Nat) :
    Nat × Nat × Nat × Nat :=
  let r := (List.range 64).foldl (md5Round block) st
  ((st.1 + r.1) % w32, (st.2.1 + r.2.1) % w32, (st.2.2.1 + r.2.2.1) % w32,
    (st.2.2.2 + r.2.2.2) % w32)

def md5Init : Nat × Nat × Nat × Nat := (1732584193, 4023233417, 2562383102, 271733878)

/-- The 16 digest bytes of `hashlib.md5(msg)`. -/
def md5Bytes (msg : List Nat) : List Nat :=
  let st := (chunks64 (padMsg msg)).foldl md5Block md5Init
  toBytesLE 4 st.1 ++ toBytesLE 4 st.2.1 ++ toBytesLE 4 st.2.2.1 ++ toBytesLE 4 st.2.2.2

/-- Lowercase hexadecimal digit. -/
def hexDigit (n : Nat) : Char :=
  if n < 10 then Char.ofNat (48 + n) else Char.ofNat (87 + n)

/-- `hashlib.md5(msg).hexdigest()`: two lowercase hex digits per digest byte. -/
def md5hex (msg : List Nat) : List Char :=
  ((md5Bytes msg).map (fun b => [hexDigit (b / 16 % 16), hexDigit (b % 16)])).flatten

theorem length_toBytesLE (k : Nat) : ∀ x, (toBytesLE k x).length = k := by
  induction k with
  | zero => intro x; rfl
  | succ k ih => intro x; rw [toBytesLE, List.length_cons, ih]

theorem md5Bytes_length (msg : List Nat) : (md5Bytes msg).length = 16 := by
  rw [md5Bytes]
  simp [List.length_append, length_toBytesLE]

theorem md5hex_length (msg : List Nat) : (md5hex msg).length = 32 := by
  have hgen : ∀ l : List Nat,
      ((l.map (fun b => [hexDigit (b / 16 % 16), hexDigit (b % 16)])).flatten).length
        = 2 * l.length := by
    intro l
    induction l with
    | nil => rfl
    | cons b rest ih =>
      simp only [List.map_cons, List.flatten_cons, List.length_append, ih,
        List.length_cons]
      simp; omega
  rw [md5hex, hgen, md5Bytes_length]

/-! ## Identity function (`_generate_squid_id`, cache_web_server.py
lines 485-502)

`json.dumps(inputs, sort_keys=True)` serializes a JSON value with every
object's keys sorted (recursively), default separators `", "` / `": "`, and
`ensure_ascii=True` string escaping; the md5 hex digest of its UTF-8 bytes is
the hash segment of `f"{name}/{revision}/{hash}"`. JSON values are modelled
by the mutually inductive `JVal`/`JArr`/`JObj` (numbers restricted to
integers: float formatting is orthogonal to the canonicalization these claims
are about). Sorting and serialization are factored as canonicalize-then-render,
which is exactly what `sort_keys=True` computes. -/

mutual
inductive JVal where
  | jnull
  | jbool (b : Bool)
  | jnum (n : Int)
  | jstr (s : String)
  | jarr (xs : JArr)
  | jobj (kvs : JObj)
inductive JArr where
  | nil
  | cons (hd : JVal) (tl : JArr)
inductive JObj where
  | nil
  | cons (k : String) (v : JVal) (tl : JObj)
end

def JObj.toList : JObj → List (String × JVal)
  | .nil => []
  | .cons k v rest => (k, v) :: rest.toList

def JObj.ofList : List (String × JVal) → JObj
  | [] => .nil
  | (k, v) :: rest => .cons k v (JObj.ofList rest)

/-- Python `sorted(d.items())` by key (unique given distinct keys). -/
def sortPairs (l : List (String × JVal)) : List (String × JVal) :=
  List.insertionSort (fun a b => a.1 ≤ b.1) l

mutual
/-- Canonicalize: recursively sort every object's key-value pairs by key. -/
def canon : JVal → JVal
  | .jnull => .jnull
  | .jbool b => .jbool b
  | .jnum n => .jnum n
  | .jstr s => .jstr s
  | .jarr xs => .jarr (canonArr xs)
  | .jobj kvs => .jobj (JObj.ofList (sortPairs (canonObj kvs).toList))
def canonArr : JArr → JArr
  | .nil => .nil
  | .cons v rest => .cons (canon v) (canonArr rest)
def canonObj : JObj → JObj
  | .nil => .nil
  | .cons k v rest => .cons k (canon v) (canonObj rest)
end

/-- Python `repr` of an int. -/
def intRepr (n : Int) : List Char :=
  if n < 0 then '-' :: Nat.toDigits 10 n.natAbs else Nat.toDigits 10 n.natAbs

/-- Four lowercase hex digits. -/
def hex4 (n : Nat) : List Char :=
  [hexDigit (n / 4096 % 16), hexDigit (n / 256 % 16), hexDigit (n / 16 % 16),
    hexDigit (n % 16)]

/-- `json.dumps` escaping of one character (`ensure_ascii=True`): the two-char
escapes, printable ASCII verbatim, `\uXXXX` otherwise (surrogate pairs above
the BMP). -/
def escChar (c : Char) : List Char :=
  if c = '"' then ['\\', '"']
  else if c = '\\' then ['\\', '\\']
  else if c = '\n' then ['\\', 'n']
  else if c = '\t' then ['\\', 't']
  else if c = '\r' then ['\\', 'r']
  else if c = '\x08' then ['\\', 'b']
  else if c = '\x0c' then ['\\', 'f']
  else if 32 ≤ c.toNat ∧ c.toNat ≤ 126 then [c]
  else if c.toNat < 65536 then '\\' :: 'u' :: hex4 c.toNat
  else ('\\' :: 'u' :: hex4 (55296 + (c.toNat - 65536) / 1024)) ++
    ('\\' :: 'u' :: hex4 (56320 + (c.toNat - 65536) % 1024))

/-- `json.dumps` rendering of a string. -/
def encodeJsonString (s : List Char) : List Char :=
  '"' :: (s.map escChar).flatten ++ ['"']

mutual
/-- Serialize a JSON value in stored order with `", "` and `": "` separators
(`json.dumps` applied after canonicalization). -/
def dumpsRaw : JVal → List Char
  | .jnull => ['n', 'u', 'l', 'l']
  | .jbool true => ['t', 'r', 'u', 'e']
  | .jbool false => ['f', 'a', 'l', 's', 'e']
  | .jnum n => intRepr n
  | .jstr s => encodeJsonString s.data
  | .jarr xs => '[' :: dumpsArr xs ++ [']']
  | .jobj kvs => '\x7b' :: dumpsObj kvs ++ ['\x7d']
def dumpsArr : JArr → List Char
  | .nil => []
  | .cons v .nil => dumpsRaw v
  | .cons v (JArr.cons w rest) =>
    dumpsRaw v ++ ',' :: ' ' :: dumpsArr (JArr.cons w rest)
def dumpsObj : JObj → List Char
  | .nil => []
  | .cons k v .nil => encodeJsonString k.data ++ ':' :: ' ' :: dumpsRaw v
  | .cons k v (JObj.cons k2 v2 rest) =>
    encodeJsonString k.data ++ ':' :: ' ' :: dumpsRaw v ++
      ',' :: ' ' :: dumpsObj (JObj.cons k2 v2 rest)
end

/-- `json.dumps(inputs, sort_keys=True)`. -/
def dumpsSorted (v : JVal) : List Char := dumpsRaw (canon v)

/-- `_generate_squid_id`: `f"{name}/{revision}/{md5(dumps)}"`. -/
def generate_squid_id (name rev : List Char) (inputs : JVal) : List Char :=
  name ++ '/' :: rev ++ '/' :: md5hex (utf8Bytes (dumpsSorted inputs))

instance : IsTotal (String × JVal) (fun a b => a.1 ≤ b.1) :=
  ⟨fun a b => le_total a.1 b.1⟩

instance : IsTrans (String × JVal) (fun a b => a.1 ≤ b.1) :=
  ⟨fun _ _ _ h1 h2 => le_trans h1 h2⟩

instance : IsAntisymm (String × JVal) (fun a b => a.1 < b.1) :=
  ⟨fun _ _ h1 h2 => absurd h2 (lt_asymm h1)⟩

theorem canonObj_ofList (l : List (String × JVal)) :
    (canonObj (JObj.ofList l)).toList = l.map (fun p => (p.1, canon p.2)) := by
  induction l with
  | nil => rfl
  | cons p rest ih =>
    obtain ⟨k, v⟩ := p
    rw [JObj.ofList, canonObj, JObj.toList, ih, List.map_cons]

theorem sortPairs_eq_of_perm (m₁ m₂ : List (String × JVal)) (hp : m₁.Perm m₂)
    (hnd : (m₁.map Prod.fst).Nodup) : sortPairs m₁ = sortPairs m₂ := by
  have hperm : (sortPairs m₁).Perm (sortPairs m₂) :=
    (List.perm_insertionSort _ m₁).trans
      (hp.trans (List.perm_insertionSort _ m₂).symm)
  have hmapped : ∀ m : List (String × JVal), (sortPairs m).Perm m →
      (m.map Prod.fst).Nodup →
      List.Sorted (fun a b : String × JVal => a.1 < b.1) (sortPairs m) := by
    intro m hpm hndm
    have hnd' : ((sortPairs m).map Prod.fst).Nodup :=
      (List.Perm.nodup_iff (hpm.map Prod.fst)).mpr hndm
    have hne : List.Pairwise (fun a b : String × JVal => a.1 ≠ b.1)
        (sortPairs m) := List.pairwise_map.mp hnd'
    have hle : List.Sorted (fun a b : String × JVal => a.1 ≤ b.1) (sortPairs m) :=
      List.sorted_insertionSort _ m
    exact (hle.and hne).imp (fun h => lt_of_le_of_ne h.1 h.2)
  have hnd₂ : (m₂.map Prod.fst).Nodup :=
    (List.Perm.nodup_iff (hp.map Prod.fst)).mp hnd
  exact List.eq_of_perm_of_sorted hperm
    (hmapped m₁ (List.perm_insertionSort _ m₁) hnd)
    (hmapped m₂ (List.perm_insertionSort _ m₂) hnd₂)

theorem canon_obj_perm (kvs₁ kvs₂ : List (String × JVal)) (hp : kvs₁.Perm kvs₂)
    (hnd : (kvs₁.map Prod.fst).Nodup) :
    canon (JVal.jobj (JObj.ofList kvs₁)) = canon (JVal.jobj (JObj.ofList kvs₂)) := by
  show JVal.jobj (JObj.ofList (sortPairs (canonObj (JObj.ofList kvs₁)).toList))
      = JVal.jobj (JObj.ofList (sortPairs (canonObj (JObj.ofList kvs₂)).toList))
  rw [canonObj_ofList, canonObj_ofList]
  congr 2
  refine sortPairs_eq_of_perm _ _ (hp.map _) ?_
  have hkeys : (kvs₁.map (fun p => (p.1, canon p.2))).map Prod.fst
      = kvs₁.map Prod.fst := by
    rw [List.map_map]
    rfl
  rw [hkeys]
  exact hnd

/-- C4: the identity function is pure and deterministic. With inputs equal up
to key ordering — a top-level permutation of the key-value pairs with
distinct keys, or more generally any two values with the same canonical form
(same keys and values, nested objects included) — it returns the identical
identifier; the identifier is `name/revision/hash` with `hash` the 32-hex-char
md5 digest of the canonically serialized inputs; and the empty inputs mapping
is valid, serializing to the canonical empty-object text before hashing. -/
theorem squid_id_deterministic :
    (∀ name rev : List Char, ∀ kvs₁ kvs₂ : List (String × JVal),
      kvs₁.Perm kvs₂ → (kvs₁.map Prod.fst).Nodup →
      generate_squid_id name rev (JVal.jobj (JObj.ofList kvs₁))
        = generate_squid_id name rev (JVal.jobj (JObj.ofList kvs₂))) ∧
    (∀ name rev : List Char, ∀ a b : JVal, canon a = canon b →
      generate_squid_id name rev a = generate_squid_id name rev b) ∧
    (∀ name rev : List Char, ∀ inputs : JVal,
      generate_squid_id name rev inputs
        = name ++ '/' :: rev ++ '/' :: md5hex (utf8Bytes (dumpsSorted inputs)) ∧
      (md5hex (utf8Bytes (dumpsSorted inputs))).length = 32) ∧
    (dumpsSorted (JVal.jobj JObj.nil) = ['\x7b', '\x7d']) := by
  have hcanon : ∀ name rev : List Char, ∀ a b : JVal, canon a = canon b →
      generate_squid_id name rev a = generate_squid_id name rev b := by
    intro name rev a b h
    rw [generate_squid_id, generate_squid_id, dumpsSorted, dumpsSorted, h]
  refine ⟨?_, hcanon, ?_, ?_⟩
  · intro name rev kvs₁ kvs₂ hp hnd
    exact hcanon name rev _ _ (canon_obj_perm kvs₁ kvs₂ hp hnd)
  · intro name rev inputs
    exact ⟨rfl, md5hex_length _⟩
  · rfl

theorem squid_id_deterministic_witness :
    (([("b", JVal.jnum 1), ("a", JVal.jnum 2)].map Prod.fst).Nodup) ∧
      generate_squid_id ['s'] ['v']
          (JVal.jobj (JObj.ofList [("b", JVal.jnum 1), ("a", JVal.jnum 2)]))
        = generate_squid_id ['s'] ['v']
          (JVal.jobj (JObj.ofList [("a", JVal.jnum 2), ("b", JVal.jnum 1)])) :=
  ⟨by decide,
    squid_id_deterministic.1 ['s'] ['v']
      [("b", JVal.jnum 1), ("a", JVal.jnum 2)]
      [("a", JVal.jnum 2), ("b", JVal.jnum 1)]
      (List.Perm.swap ("a", JVal.jnum 2) ("b", JVal.jnum 1) [])
      (by decide)⟩

end Simtool
